import Mathlib

/-!
Verification of the log ingestion and delivery pipeline of this repository.

Byte strings are modelled as `List Nat` (each element a byte value), Python
integers as `Int` where negative indices matter, and the asynchronous
generators as explicit step functions driven by a fuel-indexed runner
(one fuel unit per loop iteration), so that an infinite loop of the source
shows up as fuel exhaustion at every fuel.
-/

set_option maxRecDepth 10000

/-- Python index normalisation for slices and for the bounds of
`bytes.rfind`: a negative index counts from the end of the sequence and is
clamped at 0, a too-large index is clamped at the length. -/
def clampIdx (len : Nat) (i : Int) : Nat :=
  if i < 0 then ((len : Int) + i).toNat else min i.toNat len

/-- Python subscript `s[i]` on a byte string: a negative `i` addresses
`s[len + i]`; out of range on either side is an IndexError, modelled as
`none`. -/
def pyGet (s : List Nat) (i : Int) : Option Nat :=
  if i < 0 then
    if 0 ≤ (s.length : Int) + i then s[((s.length : Int) + i).toNat]? else none
  else s[i.toNat]?

/-- Python slice `s[a:b]` with full negative-index clamping. -/
def pySlice (s : List Nat) (a b : Int) : List Nat :=
  (s.take (clampIdx s.length b)).drop (clampIdx s.length a)

/-- Search downward from `hi - 1` to `lo` for the last occurrence of byte
`b`; this is the core of `bytes.rfind` restricted to a window. -/
def rfindFrom (s : List Nat) (b lo : Nat) : Nat → Option Nat
  | 0 => none
  | hi + 1 =>
    if hi < lo then none
    else if s[hi]? = some b then some hi
    else rfindFrom s b lo hi

/-- Python `s.rfind(bytes([b]), start, fin)`: the bounds are normalised
like slice indices, then the window `[start, fin)` is searched for the last
occurrence; `none` models the -1 result. -/
def pyRfindByte (s : List Nat) (b : Nat) (start fin : Int) : Option Nat :=
  rfindFrom s b (clampIdx s.length start) (clampIdx s.length fin)

/-- Loop `while (string[end] & 0xC0) == 0x80: end -= 1` from
`utf8_boundary_iterator` in src/helpers/data_handler_helpers.py: back the
cut position off over UTF-8 continuation bytes.  A `none` result models the
IndexError raised when the position runs below `-len(string)` (Python
subscripts wrap once at the negative end and then raise). -/
def backoffEnd (s : List Nat) (e : Int) : Option Int :=
  match h : pyGet s e with
  | none => none
  | some b => if b &&& 0xC0 = 0x80 then backoffEnd s (e - 1) else some e
termination_by (e + s.length + 1).toNat
decreasing_by
  simp only [pyGet] at h
  split at h
  · split at h
    · rename_i hneg hge
      omega
    · exact absurd h (by simp)
  · rename_i hpos
    have : 0 ≤ e := le_of_not_lt hpos
    omega

/-- Result of one iteration of the chunker loop body: a final chunk (the
`yield string[start:]; break` branch), an ordinary chunk with the next
cursor value, or an IndexError escaping from the backoff loop. -/
inductive ChunkStep where
  | last (chunk : List Nat)
  | yield (chunk : List Nat) (next : Int)
  | crash
deriving DecidableEq

/-- One iteration of the `while start < len(string)` loop body of
`utf8_boundary_iterator` (src/helpers/data_handler_helpers.py, the variant
with the anti-looping guard), at cursor `start`:
newline search first, then the continuation-byte backoff, then the guard
forcing `end = start + n` when the backoff collapsed onto `start`. -/
def utf8_boundary_step (s : List Nat) (n : Nat) (start : Int) : ChunkStep :=
  if (s.length : Int) ≤ start + n then
    .last (pySlice s start s.length)
  else
    match pyRfindByte s 10 start (start + n) with
    | some p => .yield (pySlice s start p) p
    | none =>
      match backoffEnd s (start + n) with
      | none => .crash
      | some e =>
        if e = start then .yield (pySlice s start (start + n)) (start + n)
        else .yield (pySlice s start e) e

/-- Outcome of running the chunker to exhaustion under a fuel bound:
`done` lists every yielded chunk in order; `crashed` is an escaped
IndexError; `fuelOut` means the loop was still running when the fuel
(a bound on the number of loop iterations) ran out. -/
inductive RunOut where
  | done (chunks : List (List Nat))
  | crashed
  | fuelOut
deriving DecidableEq

/-- Run `utf8_boundary_iterator` from cursor `start`, spending one fuel
unit per loop iteration, and collect every yielded chunk. -/
def utf8_boundary_run (s : List Nat) (n : Nat) : Nat → Int → RunOut
  | 0, _ => .fuelOut
  | fuel + 1, start =>
    if start < (s.length : Int) then
      match utf8_boundary_step s n start with
      | .last c => .done [c]
      | .crash => .crashed
      | .yield c next =>
        match utf8_boundary_run s n fuel next with
        | .done cs => .done (c :: cs)
        | r => r
    else .done []

/-- The iteration of the chunker on `(s, n)` terminates: some fuel bound
suffices for the loop to finish and yield its finite chunk list. -/
def utf8_boundary_terminates (s : List Nat) (n : Nat) : Prop :=
  ∃ fuel l, utf8_boundary_run s n fuel 0 = .done l

/-- Fuel-indexed executable companion of `backoffEnd`, used only to
evaluate the well-founded recursion on concrete inputs by `decide`;
`some none` encodes the IndexError, outer `none` is fuel exhaustion. -/
def backoffEndFuel (s : List Nat) : Nat → Int → Option (Option Int)
  | 0, _ => none
  | f + 1, e =>
    match pyGet s e with
    | none => some none
    | some b => if b &&& 0xC0 = 0x80 then backoffEndFuel s f (e - 1) else some (some e)

/-- Fuel-indexed executable companion of `utf8_boundary_step`. -/
def utf8_boundary_step_fuel (s : List Nat) (n : Nat) (start : Int) (bf : Nat) :
    Option ChunkStep :=
  if (s.length : Int) ≤ start + n then
    some (.last (pySlice s start s.length))
  else
    match pyRfindByte s 10 start (start + n) with
    | some p => some (.yield (pySlice s start p) p)
    | none =>
      match backoffEndFuel s bf (start + n) with
      | none => none
      | some none => some .crash
      | some (some e) =>
        if e = start then some (.yield (pySlice s start (start + n)) (start + n))
        else some (.yield (pySlice s start e) e)

/-- Fuel-indexed executable companion of `utf8_boundary_run`. -/
def utf8_boundary_run_fuel (s : List Nat) (n : Nat) (bf : Nat) : Nat → Int → Option RunOut
  | 0, _ => some .fuelOut
  | fuel + 1, start =>
    if start < (s.length : Int) then
      match utf8_boundary_step_fuel s n start bf with
      | none => none
      | some (.last c) => some (.done [c])
      | some .crash => some .crashed
      | some (.yield c next) =>
        match utf8_boundary_run_fuel s n bf fuel next with
        | some (.done cs) => some (.done (c :: cs))
        | some r => some r
        | none => none
    else some (.done [])

/-- A continuation byte has its top two bits equal to `10`. -/
def isContByte (b : Nat) : Bool := b &&& 0xC0 == 0x80

/-- Range check for the first continuation byte of a three-byte sequence
(strict UTF-8: excludes overlong encodings after 0xE0 and surrogates
after 0xED). -/
def cont3FirstOk (b c1 : Nat) : Bool :=
  if b = 0xE0 then 0xA0 ≤ c1 && c1 ≤ 0xBF
  else if b = 0xED then 0x80 ≤ c1 && c1 ≤ 0x9F
  else isContByte c1

/-- Range check for the first continuation byte of a four-byte sequence
(strict UTF-8: excludes overlong encodings after 0xF0 and values beyond
U+10FFFF after 0xF4). -/
def cont4FirstOk (b c1 : Nat) : Bool :=
  if b = 0xF0 then 0x90 ≤ c1 && c1 ≤ 0xBF
  else if b = 0xF4 then 0x80 ≤ c1 && c1 ≤ 0x8F
  else isContByte c1

/-- Strict UTF-8 decoding as performed by `bytes.decode(self, encoding =
utf-8)` with the default error handler: `none` models the
UnicodeDecodeError, `some` gives the decoded code points. -/
def utf8Decode : List Nat → Option (List Nat)
  | [] => some []
  | b :: t =>
    if b < 0x80 then (utf8Decode t).map (fun r => b :: r)
    else if b < 0xC2 then none
    else if b < 0xE0 then
      match t with
      | c1 :: t1 =>
        if isContByte c1 then
          (utf8Decode t1).map (fun r => ((b - 0xC0) * 0x40 + (c1 - 0x80)) :: r)
        else none
      | [] => none
    else if b < 0xF0 then
      match t with
      | c1 :: c2 :: t2 =>
        if cont3FirstOk b c1 && isContByte c2 then
          (utf8Decode t2).map
            (fun r => ((b - 0xE0) * 0x1000 + (c1 - 0x80) * 0x40 + (c2 - 0x80)) :: r)
        else none
      | _ => none
    else if b < 0xF5 then
      match t with
      | c1 :: c2 :: c3 :: t3 =>
        if cont4FirstOk b c1 && isContByte c2 && isContByte c3 then
          (utf8Decode t3).map
            (fun r =>
              ((b - 0xF0) * 0x40000 + (c1 - 0x80) * 0x1000 +
                (c2 - 0x80) * 0x40 + (c3 - 0x80)) :: r)
        else none
      | _ => none
    else none

/-- A CloudWatch log event record as built by the pipeline: a millisecond
timestamp and the decoded message (as Unicode code points). -/
structure LogEvent where
  timestamp : Nat
  message : List Nat
deriving DecidableEq

/-- Body of the `async for` loop of `fill_batch_buffer`
(src/helpers/data_handler_helpers.py) applied to an already collected
chunk list: decode each chunk, skip empty messages, append a log event for
each non-empty one.  A decode failure propagates as `Except.error`
carrying the offending chunk, exactly as the UnicodeDecodeError leaves the
Python function.  `ts` stands for the wall clock value
`int(datetime.now().timestamp() * 1000)`. -/
def fill_from_chunks (batch : List LogEvent) (ts : Nat) :
    List (List Nat) → Except (List Nat) (List LogEvent)
  | [] => .ok batch
  | c :: cs =>
    match utf8Decode c with
    | none => .error c
    | some msg =>
      if msg = [] then fill_from_chunks batch ts cs
      else fill_from_chunks (batch ++ [⟨ts, msg⟩]) ts cs

/-- Model of `fill_batch_buffer` (src/helpers/data_handler_helpers.py):
run the chunker over the joined message buffer and feed every yielded
chunk through decoding into the batch buffer.  The outer `none` is
returned when the chunker loop does not finish within `fuel` iterations
or escapes with an IndexError. -/
def fill_batch_buffer (batch : List LogEvent) (msg : List Nat) (n ts fuel : Nat) :
    Option (Except (List Nat) (List LogEvent)) :=
  match utf8_boundary_run msg n fuel 0 with
  | .done chunks => some (fill_from_chunks batch ts chunks)
  | _ => none

/-- The `except asyncio.exceptions.CancelledError` handler of
`process_log_messages` (src/helpers/data_handler_helpers.py): on
cancellation, return at once when the message buffer is empty and
otherwise flush the joined residue through `fill_batch_buffer` once. -/
def process_log_messages_on_cancel (msgBuf : List (List Nat)) (batch : List LogEvent)
    (n ts fuel : Nat) : Option (Except (List Nat) (List LogEvent)) :=
  if msgBuf = [] then some (.ok batch)
  else fill_batch_buffer batch msgBuf.flatten n ts fuel

/-- A run of `process_log_messages` in which the cancellation arrives at
the first `asyncio.sleep` call (the schedule forced by the repository
tests): the inner `while message_buffer` loop first flushes and clears a
non-empty buffer, then the sleep is cancelled and the handler runs with
the buffer already empty. -/
def process_log_messages_run (msgBuf : List (List Nat)) (batch : List LogEvent)
    (n ts fuel : Nat) : Option (Except (List Nat) (List LogEvent)) :=
  if msgBuf = [] then process_log_messages_on_cancel [] batch n ts fuel
  else
    match fill_batch_buffer batch msgBuf.flatten n ts fuel with
    | some (.ok batch2) => process_log_messages_on_cancel [] batch2 n ts fuel
    | r => r

/-- Result of one `put_log_events` call against the remote sink. -/
inductive SinkResult where
  | success
  | notFound
  | unavailable
deriving DecidableEq

/-- Observable trace of one `push_log_events_to_cw` call: how many times
the sink was called and the list of backoff sleeps (in time units)
performed between attempts, in order. -/
structure PushTrace where
  calls : Nat
  sleeps : List Nat
deriving DecidableEq

/-- Outcome of `push_log_events_to_cw`: normal return, or a propagated
ResourceNotFoundException, or a propagated ServiceUnavailableException. -/
inductive PushOutcome where
  | ok (tr : PushTrace)
  | errNotFound (tr : PushTrace)
  | errUnavailable (tr : PushTrace)
deriving DecidableEq

/-- Body of the `for attempt in range(1, max_retries + 1)` loop of
`push_log_events_to_cw` (src/helpers/aws_helpers.py), iterating over the
remaining attempt numbers.  The sink receives the event group and the
attempt number; on `unavailable` before the final attempt the loop sleeps
`2 ^ attempt` and continues, on the final attempt it re-raises; a
`notFound` is re-raised at once. -/
def pushGo (sink : List LogEvent → Nat → SinkResult) (events : List LogEvent)
    (maxRetries : Nat) : List Nat → PushOutcome
  | [] => .ok ⟨0, []⟩
  | a :: rest =>
    match sink events a with
    | .success => .ok ⟨1, []⟩
    | .notFound => .errNotFound ⟨1, []⟩
    | .unavailable =>
      if a = maxRetries then .errUnavailable ⟨1, []⟩
      else
        match pushGo sink events maxRetries rest with
        | .ok tr => .ok ⟨tr.calls + 1, 2 ^ a :: tr.sleeps⟩
        | .errNotFound tr => .errNotFound ⟨tr.calls + 1, 2 ^ a :: tr.sleeps⟩
        | .errUnavailable tr => .errUnavailable ⟨tr.calls + 1, 2 ^ a :: tr.sleeps⟩

/-- Model of `push_log_events_to_cw` (src/helpers/aws_helpers.py): attempt
numbers run over `range(1, max_retries + 1)`. -/
def push_log_events_to_cw (sink : List LogEvent → Nat → SinkResult)
    (events : List LogEvent) (maxRetries : Nat) : PushOutcome :=
  pushGo sink events maxRetries (List.range' 1 maxRetries)

/-- The `except asyncio.exceptions.CancelledError` handler of
`periodic_log_push` (src/helpers/aws_helpers.py): one unconditional final
`push_log_events_to_cw` call covering the whole remaining batch buffer. -/
def periodic_log_push_on_cancel (sink : List LogEvent → Nat → SinkResult)
    (batchBuffer : List LogEvent) (maxRetries : Nat) : PushOutcome :=
  push_log_events_to_cw sink batchBuffer maxRetries

/-- A sink that always accepts the pushed events. -/
def alwaysOkSink : List LogEvent → Nat → SinkResult := fun _ _ => .success

/-- The inner `while batch_buffer` drain loop of `periodic_log_push`
(src/helpers/aws_helpers.py): push the prefix `batch_buffer[:max_batch_size]`,
then delete it, until the buffer is empty.  The result is the list of
pushed groups in push order (each push assumed delivered); `none` means the
loop was still running when the fuel ran out. -/
def periodic_log_push_drain (m : Nat) : Nat → List LogEvent → Option (List (List LogEvent))
  | 0, _ => none
  | fuel + 1, buf =>
    if buf = [] then some []
    else
      match periodic_log_push_drain m fuel (buf.drop m) with
      | some gs => some (buf.take m :: gs)
      | none => none

/-- Model of `split_the_batch_buffer` (src/main.py): while at least
`bufferSize` events remain, yield the prefix of exactly `bufferSize`
events and delete it.  Returns the yielded chunks together with the
events left in the buffer; `none` means the loop was still running when
the fuel ran out. -/
def split_the_batch_buffer (bufferSize : Nat) :
    Nat → List LogEvent → Option (List (List LogEvent) × List LogEvent)
  | 0, _ => none
  | fuel + 1, buf =>
    if bufferSize ≤ buf.length then
      match split_the_batch_buffer bufferSize fuel (buf.drop bufferSize) with
      | some (gs, rest) => some (buf.take bufferSize :: gs, rest)
      | none => none
    else some ([], buf)

/-- Byte position `k` of `s` holds a byte that is not a UTF-8
continuation byte. -/
def byteNotCont (s : List Nat) (k : Nat) : Bool :=
  match s[k]? with
  | some b => !(b &&& 0xC0 == 0x80)
  | none => false

/-- The byte string `s` contains no run of `n + 1` consecutive UTF-8
continuation bytes: every window of `n + 1` bytes that fits inside `s`
contains at least one non-continuation byte.  Any valid UTF-8 string
satisfies this for every `n ≥ 3`. -/
def noLongContRun (s : List Nat) (n : Nat) : Prop :=
  ∀ i < s.length, i + n < s.length → ∃ j < n + 1, byteNotCont s (i + j) = true

instance (s : List Nat) (n : Nat) : Decidable (noLongContRun s n) := by
  unfold noLongContRun
  infer_instance

/-- UTF-8 bytes of the string Hello 世界, the boundary example from the
specification. -/
def helloWideBytes : List Nat :=
  [72, 101, 108, 108, 111, 32, 228, 184, 150, 231, 149, 140]

/-- Bytes of the spec example with an embedded newline. -/
def helloNewlineWorld : List Nat :=
  [72, 101, 108, 108, 111, 10, 87, 111, 114, 108, 100]

/-- A sink that is unavailable on the first two attempts and accepts the
third. -/
def thirdTrySink : List LogEvent → Nat → SinkResult :=
  fun _ i => if i < 3 then .unavailable else .success

/-- A sink that is always unavailable. -/
def alwaysDownSink : List LogEvent → Nat → SinkResult := fun _ _ => .unavailable

/-- A sink whose destination log group or stream does not exist. -/
def missingDestSink : List LogEvent → Nat → SinkResult := fun _ _ => .notFound

/-- UTF-8 bytes of the test line `test message 1` (pure ASCII, so the
bytes coincide with the code points). -/
def testMessage1Bytes : List Nat :=
  [116, 101, 115, 116, 32, 109, 101, 115, 115, 97, 103, 101, 32, 49]

/-- UTF-8 bytes of the test line `test message 2`. -/
def testMessage2Bytes : List Nat :=
  [116, 101, 115, 116, 32, 109, 101, 115, 115, 97, 103, 101, 32, 50]

lemma backoffEndFuel_sound (s : List Nat) :
    ∀ (f : Nat) (e : Int) (r : Option Int),
      backoffEndFuel s f e = some r → backoffEnd s e = r := by
  intro f
  induction f with
  | zero => intro e r h; simp [backoffEndFuel] at h
  | succ f ih =>
    intro e r h
    rw [backoffEnd]
    simp only [backoffEndFuel] at h
    cases hg : pyGet s e with
    | none => simp [hg] at h; simp [h]
    | some b =>
      simp only [hg] at h
      by_cases hc : b &&& 0xC0 = 0x80
      · simp only [if_pos hc] at h ⊢
        exact ih (e - 1) r h
      · simp only [if_neg hc] at h ⊢
        exact (Option.some_inj.mp h)

lemma utf8_boundary_step_fuel_sound (s : List Nat) (n : Nat) (start : Int) (bf : Nat)
    (st : ChunkStep) (h : utf8_boundary_step_fuel s n start bf = some st) :
    utf8_boundary_step s n start = st := by
  unfold utf8_boundary_step_fuel at h
  unfold utf8_boundary_step
  by_cases h1 : (s.length : Int) ≤ start + n
  · simp only [if_pos h1] at h ⊢
    exact Option.some_inj.mp h
  · simp only [if_neg h1] at h ⊢
    cases hf : pyRfindByte s 10 start (start + n) with
    | some p => simp only [hf] at h ⊢; exact Option.some_inj.mp h
    | none =>
      simp only [hf] at h ⊢
      cases hb : backoffEndFuel s bf (start + n) with
      | none => simp [hb] at h
      | some r =>
        have hbe := backoffEndFuel_sound s bf (start + n) r hb
        rw [hbe]
        cases r with
        | none => simp only [hb] at h; exact Option.some_inj.mp h
        | some e =>
          simp only [hb] at h ⊢
          by_cases he : e = start
          · simp only [if_pos he] at h ⊢; exact Option.some_inj.mp h
          · simp only [if_neg he] at h ⊢; exact Option.some_inj.mp h

lemma utf8_boundary_run_fuel_sound (s : List Nat) (n : Nat) (bf : Nat) :
    ∀ (fuel : Nat) (start : Int) (r : RunOut),
      utf8_boundary_run_fuel s n bf fuel start = some r →
      utf8_boundary_run s n fuel start = r := by
  intro fuel
  induction fuel with
  | zero =>
    intro start r h
    simp [utf8_boundary_run_fuel] at h
    simp [utf8_boundary_run, ← h]
  | succ fuel ih =>
    intro start r h
    simp only [utf8_boundary_run_fuel] at h
    simp only [utf8_boundary_run]
    by_cases h1 : start < (s.length : Int)
    · simp only [if_pos h1] at h ⊢
      cases hs : utf8_boundary_step_fuel s n start bf with
      | none => simp [hs] at h
      | some st =>
        rw [utf8_boundary_step_fuel_sound s n start bf st hs]
        cases st with
        | last c => simp only [hs] at h; exact Option.some_inj.mp h
        | crash => simp only [hs] at h; exact Option.some_inj.mp h
        | yield c next =>
          simp only [hs] at h
          dsimp only
          cases hr : utf8_boundary_run_fuel s n bf fuel next with
          | none => simp [hr] at h
          | some r2 =>
            rw [ih next r2 hr]
            cases r2 with
            | done cs => simp only [hr] at h; exact Option.some_inj.mp h
            | crashed => simp only [hr] at h; exact Option.some_inj.mp h
            | fuelOut => simp only [hr] at h; exact Option.some_inj.mp h
    · simp only [if_neg h1] at h ⊢
      exact Option.some_inj.mp h

lemma clampIdx_le (len : Nat) (i : Int) : clampIdx len i ≤ len := by
  unfold clampIdx
  split
  · omega
  · exact min_le_right _ _

lemma clampIdx_of_nonneg_le (len : Nat) (i : Int) (h0 : 0 ≤ i) (hle : i ≤ (len : Int)) :
    clampIdx len i = i.toNat := by
  unfold clampIdx
  rw [if_neg (not_lt.mpr h0)]
  omega

lemma pyGet_of_nonneg (s : List Nat) (e : Int) (h0 : 0 ≤ e) :
    pyGet s e = s[e.toNat]? := by
  unfold pyGet
  rw [if_neg (not_lt.mpr h0)]

lemma byteNotCont_true (s : List Nat) (k : Nat) (h : byteNotCont s k = true) :
    ∃ b, s[k]? = some b ∧ b &&& 0xC0 ≠ 0x80 := by
  unfold byteNotCont at h
  cases hk : s[k]? with
  | none => rw [hk] at h; exact absurd h (by simp)
  | some b =>
    rw [hk] at h
    simp only [Bool.not_eq_true', beq_eq_false_iff_ne] at h
    exact ⟨b, rfl, h⟩

lemma backoffEnd_some_notCont (s : List Nat) (e : Int) :
    ∀ e2, backoffEnd s e = some e2 → ∃ b, pyGet s e2 = some b ∧ b &&& 0xC0 ≠ 0x80 := by
  induction e using backoffEnd.induct s with
  | case1 e h =>
    intro e2 he
    rw [backoffEnd] at he
    split at he
    · exact absurd he (by simp)
    · rename_i b2 h2
      rw [h] at h2; exact absurd h2 (by simp)
  | case2 e b h hc ih =>
    intro e2 he
    rw [backoffEnd] at he
    split at he
    · exact absurd he (by simp)
    · rename_i b2 h2
      rw [h] at h2
      have hb : b = b2 := Option.some_inj.mp h2
      rw [← hb, if_pos hc] at he
      exact ih e2 he
  | case3 e b h hc =>
    intro e2 he
    rw [backoffEnd] at he
    split at he
    · exact absurd he (by simp)
    · rename_i b2 h2
      rw [h] at h2
      have hb : b = b2 := Option.some_inj.mp h2
      rw [← hb, if_neg hc] at he
      have he2 : e = e2 := Option.some_inj.mp he
      exact ⟨b, he2 ▸ h, hc⟩

lemma backoffEnd_ge (s : List Nat) (lo : Nat) (e : Int) :
    (lo : Int) ≤ e → e < (s.length : Int) →
    (∃ k : Nat, lo ≤ k ∧ (k : Int) ≤ e ∧ ∃ b, s[k]? = some b ∧ b &&& 0xC0 ≠ 0x80) →
    ∃ e2 : Int, backoffEnd s e = some e2 ∧ (lo : Int) ≤ e2 ∧ e2 ≤ e := by
  induction e using backoffEnd.induct s with
  | case1 e h =>
    intro hlo hlen _
    have h0 : 0 ≤ e := le_trans (by omega) hlo
    rw [pyGet_of_nonneg s e h0] at h
    have : e.toNat < s.length := by omega
    rw [List.getElem?_eq_getElem this] at h
    exact absurd h (by simp)
  | case2 e b h hc ih =>
    intro hlo hlen hw
    obtain ⟨k, hk1, hk2, b2, hk3, hk4⟩ := hw
    have h0 : 0 ≤ e := le_trans (by omega) hlo
    have hke : k ≠ e.toNat := by
      intro hkeq
      rw [pyGet_of_nonneg s e h0, ← hkeq, hk3] at h
      have : b2 = b := Option.some_inj.mp h
      rw [this] at hk4
      exact hk4 hc
    have hk2a : (k : Int) ≤ e - 1 := by omega
    have hlo2 : (lo : Int) ≤ e - 1 := le_trans (by exact_mod_cast hk1) hk2a
    obtain ⟨e2, he2, hge, hle⟩ :=
      ih hlo2 (by omega) ⟨k, hk1, hk2a, b2, hk3, hk4⟩
    refine ⟨e2, ?_, hge, by omega⟩
    rw [backoffEnd]
    split
    · rename_i h2; rw [h] at h2; exact absurd h2 (by simp)
    · rename_i b3 h2
      rw [h] at h2
      have hb : b = b3 := Option.some_inj.mp h2
      rw [← hb, if_pos hc]
      exact he2
  | case3 e b h hc =>
    intro hlo _ _
    refine ⟨e, ?_, hlo, le_refl e⟩
    rw [backoffEnd]
    split
    · rename_i h2; rw [h] at h2; exact absurd h2 (by simp)
    · rename_i b3 h2
      rw [h] at h2
      have hb : b = b3 := Option.some_inj.mp h2
      rw [← hb, if_neg hc]

lemma rfindFrom_some (s : List Nat) (b lo : Nat) :
    ∀ hi p, rfindFrom s b lo hi = some p → lo ≤ p ∧ p < hi ∧ s[p]? = some b := by
  intro hi
  induction hi with
  | zero => intro p h; simp [rfindFrom] at h
  | succ hi ih =>
    intro p h
    unfold rfindFrom at h
    by_cases h1 : hi < lo
    · rw [if_pos h1] at h; exact absurd h (by simp)
    · rw [if_neg h1] at h
      by_cases h2 : s[hi]? = some b
      · rw [if_pos h2] at h
        have : hi = p := Option.some_inj.mp h
        subst this
        exact ⟨by omega, by omega, h2⟩
      · rw [if_neg h2] at h
        obtain ⟨ha, hb2, hc⟩ := ih p h
        exact ⟨ha, by omega, hc⟩

lemma pyRfindByte_some (s : List Nat) (b : Nat) (st fin : Int) (p : Nat)
    (h : pyRfindByte s b st fin = some p) :
    clampIdx s.length st ≤ p ∧ p < clampIdx s.length fin ∧ s[p]? = some b :=
  rfindFrom_some s b (clampIdx s.length st) (clampIdx s.length fin) p h

lemma utf8_boundary_step_last_inv (s : List Nat) (n : Nat) (c : Int) (ch : List Nat)
    (h : utf8_boundary_step s n c = .last ch) :
    (s.length : Int) ≤ c + n ∧ ch = pySlice s c s.length := by
  unfold utf8_boundary_step at h
  by_cases h1 : (s.length : Int) ≤ c + n
  · rw [if_pos h1] at h
    exact ⟨h1, (ChunkStep.last.inj h).symm⟩
  · rw [if_neg h1] at h
    cases hf : pyRfindByte s 10 c (c + n) with
    | some p => rw [hf] at h; exact absurd h (by simp)
    | none =>
      rw [hf] at h
      cases hb : backoffEnd s (c + n) with
      | none => rw [hb] at h; exact absurd h (by simp)
      | some e =>
        rw [hb] at h
        dsimp only at h
        by_cases he : e = c
        · rw [if_pos he] at h; exact absurd h (by simp)
        · rw [if_neg he] at h; exact absurd h (by simp)

lemma utf8_boundary_step_yield_inv (s : List Nat) (n : Nat) (c : Int)
    (ch : List Nat) (nx : Int)
    (h : utf8_boundary_step s n c = .yield ch nx) :
    c + n < (s.length : Int) ∧
      ((∃ p : Nat, pyRfindByte s 10 c (c + n) = some p ∧ ch = pySlice s c p ∧ nx = p) ∨
        (pyRfindByte s 10 c (c + n) = none ∧ backoffEnd s (c + n) = some c ∧
          ch = pySlice s c (c + n) ∧ nx = c + n) ∨
        (∃ e : Int, pyRfindByte s 10 c (c + n) = none ∧ backoffEnd s (c + n) = some e ∧
          e ≠ c ∧ ch = pySlice s c e ∧ nx = e)) := by
  unfold utf8_boundary_step at h
  by_cases h1 : (s.length : Int) ≤ c + n
  · rw [if_pos h1] at h; exact absurd h (by simp)
  · rw [if_neg h1] at h
    refine ⟨by omega, ?_⟩
    cases hf : pyRfindByte s 10 c (c + n) with
    | some p =>
      rw [hf] at h
      have := ChunkStep.yield.inj h
      exact Or.inl ⟨p, rfl, this.1.symm, this.2.symm⟩
    | none =>
      rw [hf] at h
      cases hb : backoffEnd s (c + n) with
      | none => rw [hb] at h; exact absurd h (by simp)
      | some e =>
        rw [hb] at h
        dsimp only at h
        by_cases he : e = c
        · rw [if_pos he] at h
          have := ChunkStep.yield.inj h
          exact Or.inr (Or.inl ⟨rfl, by rw [he], this.1.symm, this.2.symm⟩)
        · rw [if_neg he] at h
          have := ChunkStep.yield.inj h
          exact Or.inr (Or.inr ⟨e, rfl, rfl, he, this.1.symm, this.2.symm⟩)

lemma utf8_boundary_step_yield_forward (s : List Nat) (n : Nat) (c : Int)
    (ch : List Nat) (nx : Int) (h0 : 0 ≤ c) (hnr : noLongContRun s n)
    (h : utf8_boundary_step s n c = .yield ch nx) :
    ch = pySlice s c nx ∧ c ≤ nx ∧ nx ≤ (s.length : Int) := by
  obtain ⟨hwin, hcases⟩ := utf8_boundary_step_yield_inv s n c ch nx h
  have hclen : c < (s.length : Int) := by omega
  have hcc : clampIdx s.length c = c.toNat :=
    clampIdx_of_nonneg_le s.length c h0 (by omega)
  rcases hcases with ⟨p, hf, hch, hnx⟩ | ⟨hf, hb, hch, hnx⟩ | ⟨e, hf, hb, hne, hch, hnx⟩
  · obtain ⟨hp1, hp2, _⟩ := pyRfindByte_some s 10 c (c + n) p hf
    rw [hcc] at hp1
    have hp3 : p < s.length := lt_of_lt_of_le hp2 (clampIdx_le s.length (c + n))
    subst hnx
    exact ⟨hch, by omega, by exact_mod_cast le_of_lt hp3⟩
  · subst hnx
    exact ⟨hch, by omega, by omega⟩
  · have hin : c.toNat < s.length ∧ c.toNat + n < s.length := by omega
    obtain ⟨j, hj, hbnc⟩ := hnr c.toNat hin.1 hin.2
    obtain ⟨b, hbk, hbnc2⟩ := byteNotCont_true s (c.toNat + j) hbnc
    have hwit : ∃ k : Nat, c.toNat ≤ k ∧ (k : Int) ≤ c + n ∧
        ∃ b2, s[k]? = some b2 ∧ b2 &&& 0xC0 ≠ 0x80 :=
      ⟨c.toNat + j, by omega, by omega, b, hbk, hbnc2⟩
    obtain ⟨e2, he2, hge, hle⟩ :=
      backoffEnd_ge s c.toNat (c + n) (by omega) (by omega) hwit
    rw [hb] at he2
    have : e = e2 := Option.some_inj.mp he2
    subst this
    subst hnx
    exact ⟨hch, by omega, by omega⟩

lemma pySlice_append_drop (s : List Nat) (a b : Int)
    (h0 : 0 ≤ a) (hab : a ≤ b) (hb : b ≤ (s.length : Int)) :
    pySlice s a b ++ s.drop b.toNat = s.drop a.toNat := by
  unfold pySlice
  rw [clampIdx_of_nonneg_le s.length b (by omega) hb,
    clampIdx_of_nonneg_le s.length a h0 (by omega)]
  rw [List.drop_take b.toNat a.toNat s]
  have hba : a.toNat + (b.toNat - a.toNat) = b.toNat := by omega
  calc (s.drop a.toNat).take (b.toNat - a.toNat) ++ s.drop b.toNat
      = (s.drop a.toNat).take (b.toNat - a.toNat) ++ s.drop (a.toNat + (b.toNat - a.toNat)) := by
        rw [hba]
    _ = s.drop a.toNat := List.drop_take_append_drop s a.toNat (b.toNat - a.toNat)

lemma utf8_boundary_run_done_flatten (s : List Nat) (n : Nat)
    (hnr : noLongContRun s n) :
    ∀ (fuel : Nat) (c : Int) (l : List (List Nat)), 0 ≤ c →
      utf8_boundary_run s n fuel c = .done l → l.flatten = s.drop c.toNat := by
  intro fuel
  induction fuel with
  | zero => intro c l _ h; simp [utf8_boundary_run] at h
  | succ fuel ih =>
    intro c l h0 h
    rw [utf8_boundary_run] at h
    by_cases h1 : c < (s.length : Int)
    · rw [if_pos h1] at h
      cases hs : utf8_boundary_step s n c with
      | last ch =>
        rw [hs] at h
        have hl : l = [ch] := (RunOut.done.inj h).symm
        obtain ⟨_, hch⟩ := utf8_boundary_step_last_inv s n c ch hs
        subst hl
        have : pySlice s c (s.length : Int) = s.drop c.toNat := by
          unfold pySlice
          rw [clampIdx_of_nonneg_le s.length ((s.length : Nat) : Int) (by omega) (by omega),
            clampIdx_of_nonneg_le s.length c h0 (by omega)]
          simp
        simp [hch, this]
      | crash => rw [hs] at h; exact absurd h (by simp)
      | yield ch nx =>
        rw [hs] at h
        obtain ⟨hch, hcnx, hnxlen⟩ :=
          utf8_boundary_step_yield_forward s n c ch nx h0 hnr hs
        dsimp only at h
        cases hr : utf8_boundary_run s n fuel nx with
        | done cs =>
          rw [hr] at h
          have hl : l = ch :: cs := (RunOut.done.inj h).symm
          subst hl
          have hrec := ih nx cs (le_trans h0 hcnx) hr
          simp only [List.flatten_cons, hrec, hch]
          exact pySlice_append_drop s c nx h0 hcnx hnxlen
        | crashed => rw [hr] at h; exact absurd h (by simp)
        | fuelOut => rw [hr] at h; exact absurd h (by simp)
    · rw [if_neg h1] at h
      have hl : l = [] := (RunOut.done.inj h).symm
      subst hl
      have : s.length ≤ c.toNat := by omega
      simp [List.drop_eq_nil_of_le this]

/-- Claim C1 (amended): for every byte string `s` and chunk size `n ≥ 1`
such that `s` contains no run of more than `n` consecutive UTF-8
continuation bytes, whenever the chunker loop of `utf8_boundary_iterator`
terminates, concatenating all yielded chunks in order reproduces `s`
exactly. -/
theorem utf8_boundary_iterator_concat (s : List Nat) (n fuel : Nat) (l : List (List Nat))
    (_hn : 1 ≤ n) (hnr : noLongContRun s n)
    (h : utf8_boundary_run s n fuel 0 = .done l) : l.flatten = s := by
  have hz := utf8_boundary_run_done_flatten s n hnr fuel 0 l (le_refl 0) h
  simpa using hz

/-- Claim C1, counterexample: on the four-byte input
`b(0x80 0x80 0x80 0x41)` with chunk size 2 the chunker loop of
`utf8_boundary_iterator` terminates after four iterations (the backoff
runs below `start` into Python negative indexing, the anti-looping guard
then fires at cursor -1), and the concatenation of the yielded chunks has
six bytes, not the original four. -/
theorem utf8_boundary_iterator_concat_cex :
    utf8_boundary_run [0x80, 0x80, 0x80, 0x41] 2 5 0 =
      .done [[0x80, 0x80, 0x80], [], [0x80, 0x80], [0x41]] ∧
    ([[0x80, 0x80, 0x80], [], [0x80, 0x80], [0x41]] : List (List Nat)).flatten ≠
      [0x80, 0x80, 0x80, 0x41] := by
  constructor
  · apply utf8_boundary_run_fuel_sound _ _ 20
    decide
  · decide

/-- Claim C1, witness for the amended statement: the spec example
Hello 世界 with chunk size 7 terminates with two chunks that concatenate
back to the input. -/
theorem utf8_boundary_iterator_concat_witness :
    utf8_boundary_run helloWideBytes 7 3 0 =
      .done [[72, 101, 108, 108, 111, 32], [228, 184, 150, 231, 149, 140]] ∧
    ([[72, 101, 108, 108, 111, 32], [228, 184, 150, 231, 149, 140]] :
      List (List Nat)).flatten = helloWideBytes := by
  have hrun : utf8_boundary_run helloWideBytes 7 3 0 =
      .done [[72, 101, 108, 108, 111, 32], [228, 184, 150, 231, 149, 140]] := by
    apply utf8_boundary_run_fuel_sound _ _ 20
    decide
  exact ⟨hrun, utf8_boundary_iterator_concat helloWideBytes 7 3 _ (by decide) (by decide) hrun⟩

lemma newline_loop_fuelOut :
    ∀ fuel, utf8_boundary_run [10, 97, 97, 97] 2 fuel 0 = .fuelOut := by
  intro fuel
  induction fuel with
  | zero => rfl
  | succ fuel ih =>
    have hstep : utf8_boundary_step [10, 97, 97, 97] 2 0 = .yield [] 0 := rfl
    rw [utf8_boundary_run, if_pos (by norm_num), hstep]
    dsimp only
    rw [ih]

/-- Claim C2: the code does not terminate on every input.  On the input
`b(newline a a a)` with chunk size 2 the newline search keeps finding the
newline at position 0, `start` is reset to the newline position itself,
and the loop yields empty chunks forever: every fuel bound runs out. -/
theorem utf8_boundary_iterator_nonterminating :
    ¬ utf8_boundary_terminates [10, 97, 97, 97] 2 := by
  rintro ⟨fuel, l, h⟩
  rw [newline_loop_fuelOut fuel] at h
  exact absurd h (by simp)

/-- Claim C3: every non-final chunk yielded by `utf8_boundary_iterator`
either ends on a clean boundary (the byte at the next cursor position is
not a UTF-8 continuation byte, so the cut is not in the middle of a
multi-byte code point) or is the documented pathological fallback: the
backoff collapsed onto `start` and the chunker forces the cut at
`start + n` and emits that possibly invalid chunk (with a logged warning)
instead of looping forever. -/
theorem utf8_boundary_iterator_boundary_safe (s : List Nat) (n : Nat) (c nx : Int)
    (ch : List Nat) (h : utf8_boundary_step s n c = .yield ch nx) :
    (∃ b, pyGet s nx = some b ∧ b &&& 0xC0 ≠ 0x80) ∨
      (backoffEnd s (c + n) = some c ∧ ch = pySlice s c (c + n) ∧ nx = c + n) := by
  obtain ⟨hwin, hcases⟩ := utf8_boundary_step_yield_inv s n c ch nx h
  rcases hcases with ⟨p, hf, hch, hnx⟩ | ⟨hf, hb, hch, hnx⟩ | ⟨e, hf, hb, hne, hch, hnx⟩
  · left
    obtain ⟨_, _, hp⟩ := pyRfindByte_some s 10 c (c + n) p hf
    subst hnx
    refine ⟨10, ?_, by decide⟩
    rw [pyGet_of_nonneg s p (by omega)]
    simpa using hp
  · right
    exact ⟨hb, hch, hnx⟩
  · left
    obtain ⟨b, hbg, hbc⟩ := backoffEnd_some_notCont s (c + n) e hb
    subst hnx
    exact ⟨b, hbg, hbc⟩

/-- Claim C3, witness: the first chunk of the spec example
`b(Hello newline World)` with chunk size 6 stops right before the newline,
a clean boundary. -/
theorem utf8_boundary_iterator_boundary_safe_witness :
    utf8_boundary_step helloNewlineWorld 6 0 = .yield [72, 101, 108, 108, 111] 5 ∧
    ((∃ b, pyGet helloNewlineWorld 5 = some b ∧ b &&& 0xC0 ≠ 0x80) ∨
      (backoffEnd helloNewlineWorld (0 + 6) = some 0 ∧
        [72, 101, 108, 108, 111] = pySlice helloNewlineWorld 0 (0 + 6) ∧
        (5 : Int) = 0 + 6)) :=
  ⟨rfl, utf8_boundary_iterator_boundary_safe helloNewlineWorld 6 0 5 _ rfl⟩

lemma pushGo_ok_of_success (sink : List LogEvent → Nat → SinkResult)
    (ev : List LogEvent) (m k : Nat) (hkm : k ≤ m)
    (hfail : ∀ i, 1 ≤ i → i < k → sink ev i = .unavailable)
    (hsucc : sink ev k = .success) :
    ∀ (r a : Nat), 1 ≤ a → a ≤ k → a + r = m + 1 →
      pushGo sink ev m (List.range' a r) =
        .ok ⟨k + 1 - a, (List.range' a (k - a)).map (fun i => 2 ^ i)⟩ := by
  intro r
  induction r with
  | zero => intro a _ hak har; omega
  | succ r ih =>
    intro a ha1 hak har
    rw [List.range'_succ a r 1]
    by_cases heq : a = k
    · subst heq
      unfold pushGo
      rw [hsucc]
      have h1 : a + 1 - a = 1 := by omega
      have h2 : a - a = 0 := by omega
      rw [h1, h2]
      rfl
    · have haltk : a < k := by omega
      unfold pushGo
      rw [hfail a ha1 haltk]
      have ham : a ≠ m := by omega
      rw [if_neg ham]
      rw [ih (a + 1) (by omega) (by omega) (by omega)]
      have hk1 : k - a = (k - (a + 1)) + 1 := by omega
      rw [hk1, List.range'_succ a (k - (a + 1)) 1]
      have hk2 : k + 1 - (a + 1) + 1 = k + 1 - a := by omega
      simp only [List.map_cons]
      rw [hk2]

lemma pushGo_err_of_all_unavailable (sink : List LogEvent → Nat → SinkResult)
    (ev : List LogEvent) (m : Nat)
    (hfail : ∀ i, 1 ≤ i → i ≤ m → sink ev i = .unavailable) :
    ∀ (r a : Nat), 1 ≤ a → a ≤ m → a + r = m + 1 →
      pushGo sink ev m (List.range' a r) =
        .errUnavailable ⟨m + 1 - a, (List.range' a (m - a)).map (fun i => 2 ^ i)⟩ := by
  intro r
  induction r with
  | zero => intro a _ ham har; omega
  | succ r ih =>
    intro a ha1 ham har
    rw [List.range'_succ a r 1]
    unfold pushGo
    rw [hfail a ha1 ham]
    by_cases heq : a = m
    · subst heq
      rw [if_pos rfl]
      have h1 : a + 1 - a = 1 := by omega
      have h2 : a - a = 0 := by omega
      rw [h1, h2]
      rfl
    · rw [if_neg heq]
      rw [ih (a + 1) (by omega) (by omega) (by omega)]
      have hm1 : m - a = (m - (a + 1)) + 1 := by omega
      rw [hm1, List.range'_succ a (m - (a + 1)) 1]
      have hm2 : m + 1 - (a + 1) + 1 = m + 1 - a := by omega
      simp only [List.map_cons]
      rw [hm2]

/-- Claim C4: `push_log_events_to_cw` retries the unavailable-class
failure with backoff sleeps of `2 ^ attempt` time units, attempts counted
from 1.  If the sink fails transiently on attempts `1..k-1` and succeeds
on attempt `k ≤ maxRetries`, the sink is called exactly `k` times, the
sleeps are `2^1, ..., 2^(k-1)`, and no error is propagated; if the sink
fails transiently on all `maxRetries` attempts, the last error is
propagated as `errUnavailable` after exactly `maxRetries` calls. -/
theorem push_log_events_to_cw_retry (sink : List LogEvent → Nat → SinkResult)
    (ev : List LogEvent) :
    (∀ k m : Nat, 1 ≤ k → k ≤ m →
      (∀ i, 1 ≤ i → i < k → sink ev i = .unavailable) → sink ev k = .success →
      push_log_events_to_cw sink ev m =
        .ok ⟨k, (List.range' 1 (k - 1)).map (fun a => 2 ^ a)⟩) ∧
    (∀ m : Nat, 1 ≤ m → (∀ i, 1 ≤ i → i ≤ m → sink ev i = .unavailable) →
      push_log_events_to_cw sink ev m =
        .errUnavailable ⟨m, (List.range' 1 (m - 1)).map (fun a => 2 ^ a)⟩) := by
  constructor
  · intro k m hk1 hkm hfail hsucc
    unfold push_log_events_to_cw
    have := pushGo_ok_of_success sink ev m k hkm hfail hsucc m 1 (le_refl 1) hk1 (by omega)
    simpa using this
  · intro m hm1 hfail
    unfold push_log_events_to_cw
    have := pushGo_err_of_all_unavailable sink ev m hfail m 1 (le_refl 1) hm1 (by omega)
    simpa using this

/-- Claim C4, witness: with `maxRetries = 3`, transient failures on
attempts 1 and 2 and success on attempt 3 give exactly 3 sink calls with
sleeps 2 and 4 and no propagated error, and three transient failures
propagate the unavailable error after 3 calls. -/
theorem push_log_events_to_cw_retry_witness :
    push_log_events_to_cw thirdTrySink [] 3 = .ok ⟨3, [2, 4]⟩ ∧
    push_log_events_to_cw alwaysDownSink [] 3 = .errUnavailable ⟨3, [2, 4]⟩ := by
  constructor
  · have h := (push_log_events_to_cw_retry thirdTrySink []).1 3 3 (by norm_num)
      (le_refl 3) (fun i h1 h2 => by interval_cases i <;> rfl) rfl
    simpa using h
  · have h := (push_log_events_to_cw_retry alwaysDownSink []).2 3 (by norm_num)
      (fun i h1 h2 => rfl)
    simpa using h

/-- Claim C5: a not-found-class failure is never retried:
`push_log_events_to_cw` propagates it after exactly one sink call and
performs no backoff sleep. -/
theorem push_log_events_to_cw_not_found (sink : List LogEvent → Nat → SinkResult)
    (ev : List LogEvent) (m : Nat) (hm : 1 ≤ m) (h : sink ev 1 = .notFound) :
    push_log_events_to_cw sink ev m = .errNotFound ⟨1, []⟩ := by
  unfold push_log_events_to_cw
  obtain ⟨m2, rfl⟩ : ∃ m2, m = m2 + 1 := ⟨m - 1, by omega⟩
  rw [List.range'_succ 1 m2 1]
  unfold pushGo
  rw [h]

/-- Claim C5, witness: a missing destination with `maxRetries = 3` is
propagated after one call with no sleeps. -/
theorem push_log_events_to_cw_not_found_witness :
    push_log_events_to_cw missingDestSink [] 3 = .errNotFound ⟨1, []⟩ :=
  push_log_events_to_cw_not_found missingDestSink [] 3 (by norm_num) rfl

/-- Claim C6: the cancellation handler of `periodic_log_push` calls
`push_log_events_to_cw` unconditionally, so with an empty batch buffer at
cancellation the sink is still called exactly once (with the empty event
list) instead of the push being skipped as the specification and the
repository test `test_periodic_log_push` expect. -/
theorem periodic_log_push_cancel_empty_still_pushes :
    periodic_log_push_on_cancel alwaysOkSink [] 3 = .ok ⟨1, []⟩ := rfl

lemma periodic_drain_spec (m : Nat) (hm : 1 ≤ m) :
    ∀ (fuel : Nat) (buf : List LogEvent), buf.length < fuel →
      ∃ gs, periodic_log_push_drain m fuel buf = some gs ∧ gs.flatten = buf ∧
        ∀ g ∈ gs, g ≠ [] ∧ g.length ≤ m := by
  intro fuel
  induction fuel with
  | zero => intro buf h; omega
  | succ fuel ih =>
    intro buf hlen
    by_cases hb : buf = []
    · subst hb
      exact ⟨[], by simp [periodic_log_push_drain], rfl, by simp⟩
    · have hpos : 1 ≤ buf.length := List.length_pos.mpr hb
      have hlt : (buf.drop m).length < fuel := by
        rw [List.length_drop]
        omega
      obtain ⟨gs, hgs, hfl, hall⟩ := ih (buf.drop m) hlt
      refine ⟨buf.take m :: gs, ?_, ?_, ?_⟩
      · unfold periodic_log_push_drain
        rw [if_neg hb, hgs]
      · rw [List.flatten_cons, hfl, List.take_append_drop]
      · intro g hg
        rcases List.mem_cons.mp hg with hg | hg
        · subst hg
          constructor
          · simp only [ne_eq, List.take_eq_nil_iff]
            push_neg
            exact ⟨by omega, hb⟩
          · rw [List.length_take]
            omega
        · exact hall g hg

/-- Claim C7: while draining, `periodic_log_push` repeatedly pushes the
contiguous prefix `batch_buffer[:max_batch_size]` and then removes it,
until the buffer is empty: the pushed groups concatenate (in push order)
to exactly the original buffer, every group is non-empty with at most
`maxBatchSize` events, and in particular a queue of 2 events with
`maxBatchSize = 2` is drained by exactly one push of those 2 events in
order, leaving the queue empty. -/
theorem periodic_log_push_drain_prefix :
    (∀ (buf : List LogEvent) (m fuel : Nat), 1 ≤ m → buf.length < fuel →
      ∃ gs, periodic_log_push_drain m fuel buf = some gs ∧ gs.flatten = buf ∧
        ∀ g ∈ gs, g ≠ [] ∧ g.length ≤ m) ∧
    (∀ e1 e2 : LogEvent, periodic_log_push_drain 2 3 [e1, e2] = some [[e1, e2]]) := by
  constructor
  · intro buf m fuel hm hlen
    exact periodic_drain_spec m hm fuel buf hlen
  · intro e1 e2
    rfl

/-- Claim C7, witness: the two-event queue of the repository test drained
with `maxBatchSize = 2`. -/
theorem periodic_log_push_drain_prefix_witness :
    ∃ gs, periodic_log_push_drain 2 3 [⟨1234567890, [97]⟩, ⟨1234567891, [98]⟩] = some gs ∧
      gs.flatten = [⟨1234567890, [97]⟩, ⟨1234567891, [98]⟩] ∧
      ∀ g ∈ gs, g ≠ [] ∧ g.length ≤ 2 :=
  periodic_log_push_drain_prefix.1 [⟨1234567890, [97]⟩, ⟨1234567891, [98]⟩] 2 3
    (by norm_num) (by norm_num)

/-- Claim C8: the Raw Buffer Accumulator draining guarantee.  With the two
test lines buffered (size threshold 1024, so the high-water mark is never
hit) and cancellation arriving at the first sleep, exactly one log event
is produced and its message is the concatenation
`test message 1test message 2`; moreover the cancellation handler flushes
nothing when the residue is empty and flushes the joined residue through
`fill_batch_buffer` exactly once when it is non-empty. -/
theorem process_log_messages_drain_guarantee :
    (∀ ts : Nat,
      process_log_messages_run [testMessage1Bytes, testMessage2Bytes] [] 1024 ts 1 =
        some (.ok [⟨ts, "test message 1test message 2".data.map Char.toNat⟩])) ∧
    (∀ (batch : List LogEvent) (n ts fuel : Nat),
      process_log_messages_on_cancel [] batch n ts fuel = some (.ok batch)) ∧
    (∀ (msgBuf : List (List Nat)) (batch : List LogEvent) (n ts fuel : Nat),
      msgBuf ≠ [] →
      process_log_messages_on_cancel msgBuf batch n ts fuel =
        fill_batch_buffer batch msgBuf.flatten n ts fuel) := by
  refine ⟨fun ts => rfl, fun batch n ts fuel => rfl, ?_⟩
  intro msgBuf batch n ts fuel h
  unfold process_log_messages_on_cancel
  rw [if_neg h]

/-- Claim C8, witness: the concrete run at timestamp 0, and the handler
flushing a one-line residue through the batcher exactly once. -/
theorem process_log_messages_drain_guarantee_witness :
    process_log_messages_run [testMessage1Bytes, testMessage2Bytes] [] 1024 0 1 =
      some (.ok [⟨0, "test message 1test message 2".data.map Char.toNat⟩]) ∧
    process_log_messages_on_cancel [[104]] [] 8 0 1 = fill_batch_buffer [] [104] 8 0 1 :=
  ⟨process_log_messages_drain_guarantee.1 0,
    process_log_messages_drain_guarantee.2.2 [[104]] [] 8 0 1 (by decide)⟩

/-- Claim C9: on the input `b(0x41 0x80 0x80 0x80)` with chunk size 2 the
pathological fallback of the chunker emits the invalid-boundary chunk
`b(0x41 0x80)`, and `fill_batch_buffer` then propagates the
UnicodeDecodeError raised by the strict UTF-8 decode of that chunk instead
of completing: the malformed input is not handled locally. -/
theorem fill_batch_buffer_decode_error :
    fill_batch_buffer [] [0x41, 0x80, 0x80, 0x80] 2 0 3 =
      some (.error [0x41, 0x80]) := by
  have hrun : utf8_boundary_run [0x41, 0x80, 0x80, 0x80] 2 3 0 =
      .done [[0x41, 0x80], [0x80, 0x80]] := by
    apply utf8_boundary_run_fuel_sound _ _ 20
    decide
  unfold fill_batch_buffer
  rw [hrun]
  rfl

lemma split_the_batch_buffer_spec (size : Nat) (hs : 1 ≤ size) :
    ∀ (fuel : Nat) (buf : List LogEvent), buf.length < fuel →
      ∃ gs rest, split_the_batch_buffer size fuel buf = some (gs, rest) ∧
        (∀ g ∈ gs, g.length = size) ∧ rest.length < size ∧ gs.flatten ++ rest = buf := by
  intro fuel
  induction fuel with
  | zero => intro buf h; omega
  | succ fuel ih =>
    intro buf hlen
    by_cases hge : size ≤ buf.length
    · have hlt : (buf.drop size).length < fuel := by
        rw [List.length_drop]
        omega
      obtain ⟨gs, rest, hsp, hall, hrest, hcat⟩ := ih (buf.drop size) hlt
      refine ⟨buf.take size :: gs, rest, ?_, ?_, hrest, ?_⟩
      · unfold split_the_batch_buffer
        rw [if_pos hge, hsp]
      · intro g hg
        rcases List.mem_cons.mp hg with hg | hg
        · subst hg
          rw [List.length_take]
          omega
        · exact hall g hg
      · rw [List.flatten_cons, List.append_assoc, hcat, List.take_append_drop]
    · refine ⟨[], buf, ?_, by simp, by omega, by simp⟩
      unfold split_the_batch_buffer
      rw [if_neg hge]

/-- Claim C10: for every `buffer_size ≥ 1`, `split_the_batch_buffer`
yields only chunks of exactly `buffer_size` events (never a partial
chunk), leaves fewer than `buffer_size` events in the buffer when the
generator is exhausted, and consumes a contiguous prefix: the yielded
chunks followed by the leftover reconstitute the original buffer.  Hence
groups smaller than the batch size are never pushed during streaming and
stay buffered until the stream ends. -/
theorem split_the_batch_buffer_full_chunks (bufferSize fuel : Nat) (buf : List LogEvent)
    (hs : 1 ≤ bufferSize) (hfuel : buf.length < fuel) :
    ∃ gs rest, split_the_batch_buffer bufferSize fuel buf = some (gs, rest) ∧
      (∀ g ∈ gs, g.length = bufferSize) ∧ rest.length < bufferSize ∧
      gs.flatten ++ rest = buf :=
  split_the_batch_buffer_spec bufferSize hs fuel buf hfuel

/-- Claim C10, witness: a buffer of three events split with
`buffer_size = 2`. -/
theorem split_the_batch_buffer_full_chunks_witness :
    ∃ gs rest,
      split_the_batch_buffer 2 4 [⟨0, [97]⟩, ⟨1, [98]⟩, ⟨2, [99]⟩] = some (gs, rest) ∧
      (∀ g ∈ gs, g.length = 2) ∧ rest.length < 2 ∧
      gs.flatten ++ rest = [⟨0, [97]⟩, ⟨1, [98]⟩, ⟨2, [99]⟩] :=
  split_the_batch_buffer_full_chunks 2 4 [⟨0, [97]⟩, ⟨1, [98]⟩, ⟨2, [99]⟩]
    (by norm_num) (by norm_num)
